import Mathlib

/-!
Verification of the toil merge-sort example (src/toil/test/sort/sort.py).

A file's content is modelled as a list of bytes (List Nat); the newline
byte is 10.  Python file handles are byte streams: readline returns the
bytes up to and including the next newline (or up to EOF), readlines
returns the list of all lines.  Python 2 string comparison on byte
strings is byte-wise lexicographic order, modelled by leLine.
-/

namespace ToilSort

/-- The newline byte. -/
def nl : Nat := 10

/-- One Python readline step on a byte stream: returns the line read
(terminator included; everything up to EOF when no newline remains)
and the remaining stream. -/
def readline : List Nat → List Nat × List Nat
  | [] => ([], [])
  | b :: rest =>
    if b = nl then ([nl], rest)
    else (b :: (readline rest).1, (readline rest).2)

/-- Helper for splitLines: acc holds the bytes of the current
unfinished line, reversed. -/
def splitLinesAux : List Nat → List Nat → List (List Nat)
  | [], acc => if acc = [] then [] else [acc.reverse]
  | b :: rest, acc =>
    if b = nl then (acc.reverse ++ [nl]) :: splitLinesAux rest []
    else splitLinesAux rest (b :: acc)

/-- Python readlines: the list of lines of a byte content, each line
keeping its trailing newline; the final line may be unterminated. -/
def splitLines (c : List Nat) : List (List Nat) :=
  splitLinesAux c []

/-- Python 2 byte-string comparison (<=): byte-wise lexicographic
order, a strict initial segment comparing smaller. -/
def leLine : List Nat → List Nat → Bool
  | [], _ => true
  | _ :: _, [] => false
  | a :: as, b :: bs => if a < b then true else if b < a then false else leLine as bs

/-- leLine as a Prop, for sortedness statements. -/
def leB (a b : List Nat) : Prop := leLine a b = true

instance decidableLeB (a b : List Nat) : Decidable (leB a b) :=
  inferInstanceAs (Decidable (leLine a b = true))

/-- Insert a line into a sorted list of lines, before any equal line
already present. -/
def insertLine (x : List Nat) : List (List Nat) → List (List Nat)
  | [] => [x]
  | y :: ys => if leLine x y then x :: y :: ys else y :: insertLine x ys

/-- Stable sort of a list of lines by leLine.  Python's list.sort is a
stable sort by the same order; a stable sorted permutation is unique,
so this insertion sort computes exactly what lines.sort() computes. -/
def sortLines : List (List Nat) → List (List Nat)
  | [] => []
  | x :: xs => insertLine x (sortLines xs)

/-- The sort function of sort.py: read all lines, sort them, write
them back.  The resulting content is the concatenation of the sorted
lines. -/
def sort (c : List Nat) : List Nat :=
  (sortLines (splitLines c)).flatten

/-! ## Basic facts about readline and splitLines -/

theorem readline_append_eq (c : List Nat) : (readline c).1 ++ (readline c).2 = c := by
  induction c with
  | nil => rfl
  | cons b rest ih =>
    by_cases h : b = nl
    · simp [readline, h]
    · simp [readline, h, ih]

theorem readline_fst_ne_nil {c : List Nat} (h : c ≠ []) : (readline c).1 ≠ [] := by
  match c with
  | b :: rest =>
    by_cases hb : b = nl <;> simp [readline, hb]

theorem readline_snd_length_lt {c : List Nat} (h : c ≠ []) :
    (readline c).2.length < c.length := by
  have hap := readline_append_eq c
  have hf := readline_fst_ne_nil h
  have : (readline c).1.length + (readline c).2.length = c.length := by
    rw [← List.length_append, hap]
  have : 0 < (readline c).1.length := List.length_pos.mpr hf
  omega

theorem readline_snd_length_le (c : List Nat) : (readline c).2.length ≤ c.length := by
  by_cases h : c = []
  · subst h; simp [readline]
  · exact Nat.le_of_lt (readline_snd_length_lt h)

/-- No byte of a line is a newline except possibly the last. -/
theorem readline_dropLast_ne_nl (c : List Nat) :
    ∀ b ∈ (readline c).1.dropLast, b ≠ nl := by
  induction c with
  | nil => simp [readline]
  | cons b rest ih =>
    by_cases hb : b = nl
    · simp [readline, hb]
    · intro x hx
      rw [readline] at hx
      simp only [if_neg hb] at hx
      rcases h1 : (readline rest).1 with _ | ⟨y, ys⟩
      · rw [h1] at hx; simp at hx
      · rw [h1] at hx
        rw [List.dropLast_cons₂] at hx
        rcases List.mem_cons.mp hx with h | h
        · subst h; exact hb
        · exact ih x (by rw [h1]; exact h)

/-- A line ends with a newline, unless it ran to the end of the stream. -/
theorem readline_close (c : List Nat) :
    (readline c).1.getLast? = some nl ∨ ((readline c).1 = c ∧ (readline c).2 = []) := by
  induction c with
  | nil => right; constructor <;> rfl
  | cons b rest ih =>
    by_cases hb : b = nl
    · left; simp [readline, hb]
    · rcases ih with h | ⟨h1, h2⟩
      · left
        rw [readline]; simp only [if_neg hb]
        rcases hq : (readline rest).1 with _ | ⟨y, ys⟩
        · rw [hq] at h; simp at h
        · rw [hq] at h
          simpa [List.getLast?_cons_cons] using h
      · right
        rw [readline]; simp only [if_neg hb]
        exact ⟨by rw [h1], h2⟩

/-- splitLinesAux expressed through readline. -/
theorem splitLinesAux_eq (c : List Nat) : ∀ acc,
    splitLinesAux c acc =
      if c = [] ∧ acc = [] then []
      else (acc.reverse ++ (readline c).1) :: splitLinesAux (readline c).2 [] := by
  induction c with
  | nil =>
    intro acc
    by_cases h : acc = [] <;> simp [splitLinesAux, readline, h]
  | cons b rest ih =>
    intro acc
    by_cases hb : b = nl
    · simp [splitLinesAux, readline, hb]
    · rw [splitLinesAux, if_neg hb, ih (b :: acc), readline]
      simp only [if_neg hb]
      by_cases hr : rest = []
      · subst hr; simp [readline, splitLinesAux]
      · simp only [hr, and_false, if_neg, false_and, if_false]
        simp

theorem splitLines_nil : splitLines [] = [] := rfl

theorem splitLines_cons_eq {c : List Nat} (h : c ≠ []) :
    splitLines c = (readline c).1 :: splitLines (readline c).2 := by
  rw [splitLines, splitLinesAux_eq c []]
  simp [h, splitLines]

/-- The lines of a content concatenate back to the content. -/
theorem flatten_splitLines (c : List Nat) : (splitLines c).flatten = c := by
  suffices h : ∀ n, ∀ c : List Nat, c.length ≤ n → (splitLines c).flatten = c from
    h c.length c (Nat.le_refl _)
  intro n
  induction n with
  | zero =>
    intro c hc
    have hcn : c = [] := List.eq_nil_of_length_eq_zero (Nat.le_zero.mp hc)
    subst hcn; simp [splitLines_nil]
  | succ n ih =>
    intro c hc
    by_cases h : c = []
    · subst h; simp [splitLines_nil]
    · rw [splitLines_cons_eq h, List.flatten_cons,
        ih _ (by have := readline_snd_length_lt h; omega)]
      exact readline_append_eq c

/-- Every line of a content is nonempty. -/
theorem splitLines_ne_nil {c : List Nat} : ∀ l ∈ splitLines c, l ≠ [] := by
  suffices h : ∀ n, ∀ c : List Nat, c.length ≤ n → ∀ l ∈ splitLines c, l ≠ [] from
    h c.length c (Nat.le_refl _)
  intro n
  induction n with
  | zero =>
    intro c hc
    have hcn : c = [] := List.eq_nil_of_length_eq_zero (Nat.le_zero.mp hc)
    subst hcn; simp [splitLines_nil]
  | succ n ih =>
    intro c hc
    by_cases h : c = []
    · subst h; simp [splitLines_nil]
    · rw [splitLines_cons_eq h]
      intro l hl
      rcases List.mem_cons.mp hl with h1 | h1
      · subst h1; exact readline_fst_ne_nil h
      · exact ih _ (by have := readline_snd_length_lt h; omega) l h1

/-- No line of a content has a newline strictly inside it. -/
theorem splitLines_dropLast_ne_nl {c : List Nat} :
    ∀ l ∈ splitLines c, ∀ b ∈ l.dropLast, b ≠ nl := by
  suffices h : ∀ n, ∀ c : List Nat, c.length ≤ n →
      ∀ l ∈ splitLines c, ∀ b ∈ l.dropLast, b ≠ nl from
    h c.length c (Nat.le_refl _)
  intro n
  induction n with
  | zero =>
    intro c hc
    have hcn : c = [] := List.eq_nil_of_length_eq_zero (Nat.le_zero.mp hc)
    subst hcn; simp [splitLines_nil]
  | succ n ih =>
    intro c hc
    by_cases h : c = []
    · subst h; simp [splitLines_nil]
    · rw [splitLines_cons_eq h]
      intro l hl
      rcases List.mem_cons.mp hl with h1 | h1
      · subst h1; exact readline_dropLast_ne_nl c
      · exact ih _ (by have := readline_snd_length_lt h; omega) l h1

/-- Every line except possibly the last ends with a newline. -/
theorem splitLines_dropLast_terminated {c : List Nat} :
    ∀ l ∈ (splitLines c).dropLast, l.getLast? = some nl := by
  suffices h : ∀ n, ∀ c : List Nat, c.length ≤ n →
      ∀ l ∈ (splitLines c).dropLast, l.getLast? = some nl from
    h c.length c (Nat.le_refl _)
  intro n
  induction n with
  | zero =>
    intro c hc
    have hcn : c = [] := List.eq_nil_of_length_eq_zero (Nat.le_zero.mp hc)
    subst hcn; simp [splitLines_nil]
  | succ n ih =>
    intro c hc
    by_cases h : c = []
    · subst h; simp [splitLines_nil]
    · rw [splitLines_cons_eq h]
      intro l hl
      rcases hq : splitLines (readline c).2 with _ | ⟨y, ys⟩
      · rw [hq] at hl; simp at hl
      · rw [hq, List.dropLast_cons₂] at hl
        rcases List.mem_cons.mp hl with h1 | h1
        · subst h1
          rcases readline_close c with h2 | ⟨h2, h3⟩
          · exact h2
          · rw [h3, splitLines_nil] at hq; exact absurd hq (by simp)
        · have := ih (readline c).2 (by have := readline_snd_length_lt h; omega)
          rw [hq] at this
          exact this l h1

/-- The well-formedness that characterizes a list of lines produced by
splitLines: each line is nonempty with newlines only at its end, and
every line except the last is newline-terminated. -/
def WFlines (ls : List (List Nat)) : Prop :=
  (∀ l ∈ ls, l ≠ [] ∧ ∀ b ∈ l.dropLast, b ≠ nl) ∧
    ∀ l ∈ ls.dropLast, l.getLast? = some nl

theorem WFlines_splitLines (c : List Nat) : WFlines (splitLines c) :=
  ⟨fun l hl => ⟨splitLines_ne_nil l hl, splitLines_dropLast_ne_nl l hl⟩,
   splitLines_dropLast_terminated⟩

/-- readline consumes a whole stream that has no interior newline. -/
theorem readline_eq_self {c : List Nat} (h : ∀ b ∈ c.dropLast, b ≠ nl) :
    readline c = (c, []) := by
  induction c with
  | nil => rfl
  | cons b rest ih =>
    rcases hr : rest with _ | ⟨y, ys⟩
    · by_cases hb : b = nl
      · subst hb; simp [readline]
      · simp [readline, hb]
    · rw [← hr]
      have hb : b ≠ nl := by
        apply h; rw [hr, List.dropLast_cons₂]; exact List.mem_cons_self b _
      have hrest : readline rest = (rest, []) := by
        apply ih
        intro x hx
        apply h
        rw [hr, List.dropLast_cons₂]
        rw [hr] at hx
        exact List.mem_cons_of_mem _ hx
      rw [readline]
      simp [hb, hrest]

/-- readline of an extended stream, when the first line is
newline-terminated, reads the same line. -/
theorem readline_append_of_nl {c : List Nat}
    (h : (readline c).1.getLast? = some nl) (d : List Nat) :
    readline (c ++ d) = ((readline c).1, (readline c).2 ++ d) := by
  induction c with
  | nil => simp [readline] at h
  | cons b rest ih =>
    by_cases hb : b = nl
    · subst hb; simp [readline]
    · rw [readline] at h ⊢
      simp only [if_neg hb] at h ⊢
      rcases hq : (readline rest).1 with _ | ⟨y, ys⟩
      · have : rest = [] := by
          by_contra hne
          exact readline_fst_ne_nil hne hq
        subst this
        rw [hq] at h
        simp at h
        exact absurd h hb
      · rw [hq] at h
        rw [List.getLast?_cons_cons] at h
        have := ih (by rw [hq]; exact h)
        rw [List.cons_append, readline]
        simp only [if_neg hb, this, hq]

/-- splitLines inverts flatten on a well-formed list of lines. -/
theorem splitLines_flatten_of_WF {ls : List (List Nat)} (h : WFlines ls) :
    splitLines ls.flatten = ls := by
  induction ls with
  | nil => simp [splitLines_nil]
  | cons l ls ih =>
    obtain ⟨h1, h2⟩ := h
    have hl : l ≠ [] := (h1 l (List.mem_cons_self _ _)).1
    have hlnl : ∀ b ∈ l.dropLast, b ≠ nl := (h1 l (List.mem_cons_self _ _)).2
    have hrl : readline l = (l, []) := readline_eq_self hlnl
    rcases hls : ls with _ | ⟨m, ms⟩
    · simp only [List.flatten_cons, List.flatten_nil, List.append_nil]
      rw [splitLines_cons_eq hl, hrl, splitLines_nil]
    · rw [← hls]
      have hlsne : ls ≠ [] := by rw [hls]; simp
      have hterm : l.getLast? = some nl := by
        apply h2
        rw [hls, List.dropLast_cons₂]
        exact List.mem_cons_self _ _
      have hflat : ls.flatten ≠ [] := by
        rw [hls]
        have hm : m ≠ [] := (h1 m (by rw [hls]; simp)).1
        simp only [List.flatten_cons]
        intro hcon
        exact hm (List.append_eq_nil.mp hcon).1
      have hra : readline (l ++ ls.flatten) = (l, ls.flatten) := by
        have := readline_append_of_nl (c := l) (by rw [hrl]; exact hterm) ls.flatten
        rw [hrl] at this
        simpa using this
      rw [List.flatten_cons, splitLines_cons_eq (by simp [hl]), hra]
      congr 1
      apply ih
      constructor
      · exact fun x hx => h1 x (List.mem_cons_of_mem _ hx)
      · intro x hx
        apply h2
        rcases hq : ls with _ | ⟨p, ps⟩
        · rw [hq] at hx; simp at hx
        · rw [List.dropLast_cons₂]
          rw [hq] at hx
          exact List.mem_cons_of_mem _ hx

/-- Splitting a content at a newline boundary splits its line list. -/
theorem splitLines_append_of_nl {c₁ : List Nat} (hne : c₁ ≠ [])
    (h : c₁.getLast? = some nl) (c₂ : List Nat) :
    splitLines (c₁ ++ c₂) = splitLines c₁ ++ splitLines c₂ := by
  suffices hs : ∀ n, ∀ c₁ : List Nat, c₁.length ≤ n → c₁ ≠ [] → c₁.getLast? = some nl →
      splitLines (c₁ ++ c₂) = splitLines c₁ ++ splitLines c₂ from
    hs c₁.length c₁ (Nat.le_refl _) hne h
  intro n
  induction n with
  | zero =>
    intro c₁ hc hne _
    exact absurd (List.eq_nil_of_length_eq_zero (Nat.le_zero.mp hc)) hne
  | succ n ih =>
    intro c₁ hc hne hlast
    have hline : (readline c₁).1.getLast? = some nl := by
      rcases readline_close c₁ with h1 | ⟨h1, _⟩
      · exact h1
      · rw [h1]; exact hlast
    have hra := readline_append_of_nl hline c₂
    rw [splitLines_cons_eq (by simp [hne]), hra]
    simp only
    rcases hr : (readline c₁).2 with _ | ⟨y, ys⟩
    · rw [splitLines_cons_eq hne, hr, splitLines_nil]
      simp
    · rw [← hr]
      have hrne : (readline c₁).2 ≠ [] := by rw [hr]; simp
      have hrlast : (readline c₁).2.getLast? = some nl := by
        have hap := readline_append_eq c₁
        rw [← hap] at hlast
        rwa [List.getLast?_append_of_ne_nil _ hrne] at hlast
      rw [ih (readline c₁).2 (by have := readline_snd_length_lt hne; omega) hrne hrlast]
      rw [splitLines_cons_eq hne]
      simp

/-- If position k of the stream holds a newline, the first line is
newline-terminated and ends at or before k. -/
theorem readline_of_nl_at {c : List Nat} {k : Nat} (h : getElem? c k = some nl) :
    (readline c).1.getLast? = some nl ∧ (readline c).1.length ≤ k + 1 := by
  induction c generalizing k with
  | nil => simp at h
  | cons b rest ih =>
    by_cases hb : b = nl
    · subst hb; simp [readline]
    · rcases k with _ | j
      · simp at h; exact absurd h hb
      · rw [List.getElem?_cons_succ] at h
        obtain ⟨h1, h2⟩ := ih h
        have hne : (readline rest).1 ≠ [] := by
          intro hcon; rw [hcon] at h1; simp at h1
        rw [readline]
        simp only [if_neg hb]
        constructor
        · rcases hq : (readline rest).1 with _ | ⟨y, ys⟩
          · exact absurd hq hne
          · rw [List.getLast?_cons_cons]; rw [hq] at h1; exact h1
        · simp only [List.length_cons]; omega

/-- The last byte of a newline-terminated first line is a newline of
the stream. -/
theorem readline_nl_pos {c : List Nat} (h : (readline c).1.getLast? = some nl) :
    getElem? c ((readline c).1.length - 1) = some nl := by
  obtain ⟨l, r, hl, hr⟩ : ∃ l r, (readline c).1 = l ∧ (readline c).2 = r := ⟨_, _, rfl, rfl⟩
  rw [hl] at h ⊢
  have hap : l ++ r = c := by rw [← hl, ← hr]; exact readline_append_eq c
  have hne : l ≠ [] := by intro hcon; rw [hcon] at h; simp at h
  have hlen : 0 < l.length := List.length_pos.mpr hne
  rw [← hap, List.getElem?_append, if_pos (by omega), ← List.getLast?_eq_getElem?]
  exact h

/-! ## The order leLine -/

theorem leLine_refl (a : List Nat) : leLine a a = true := by
  induction a with
  | nil => rfl
  | cons b bs ih => simp [leLine, ih]

theorem leLine_total (a b : List Nat) : leLine a b = true ∨ leLine b a = true := by
  induction a generalizing b with
  | nil => left; rfl
  | cons x xs ih =>
    rcases b with _ | ⟨y, ys⟩
    · right; rfl
    · by_cases h1 : x < y
      · left; simp [leLine, h1]
      · by_cases h2 : y < x
        · right; simp [leLine, h2]
        · have hxy : x = y := by omega
          subst hxy
          rcases ih ys with h | h
          · left; simp [leLine, h1, h2, h]
          · right; simp [leLine, h1, h2, h]

theorem leLine_trans {a b c : List Nat} (h1 : leLine a b = true)
    (h2 : leLine b c = true) : leLine a c = true := by
  induction a generalizing b c with
  | nil => rfl
  | cons x xs ih =>
    rcases b with _ | ⟨y, ys⟩
    · simp [leLine] at h1
    · rcases c with _ | ⟨z, zs⟩
      · simp [leLine] at h2
      · rw [leLine] at h1 h2 ⊢
        by_cases hxy : x < y
        · rw [if_pos hxy] at h1
          by_cases hyz : y < z
          · rw [if_pos (show x < z by omega)]
          · rw [if_neg hyz] at h2
            by_cases hzy : z < y
            · rw [if_pos hzy] at h2; simp at h2
            · have hyz2 : y = z := by omega
              subst hyz2
              rw [if_pos hxy]
        · rw [if_neg hxy] at h1
          by_cases hyx : y < x
          · rw [if_pos hyx] at h1; simp at h1
          · rw [if_neg hyx] at h1
            have hxy2 : x = y := by omega
            subst hxy2
            by_cases hxz : x < z
            · rw [if_pos hxz]
            · rw [if_neg hxz] at h2 ⊢
              by_cases hzx : z < x
              · rw [if_pos hzx] at h2; simp at h2
              · rw [if_neg hzx] at h2 ⊢
                exact ih h1 h2

theorem leLine_of_not_le {a b : List Nat} (h : leLine a b = false) :
    leLine b a = true := by
  rcases leLine_total a b with h1 | h1
  · rw [h1] at h; cases h
  · exact h1

/-! ## The stable insertion sort -/

theorem insertLine_perm (x : List Nat) (l : List (List Nat)) :
    List.Perm (insertLine x l) (x :: l) := by
  induction l with
  | nil => exact List.Perm.refl _
  | cons y ys ih =>
    rw [insertLine]
    by_cases h : leLine x y
    · rw [if_pos h]
    · rw [if_neg h]
      exact (ih.cons y).trans (List.Perm.swap x y ys)

theorem sortLines_perm (l : List (List Nat)) : List.Perm (sortLines l) l := by
  induction l with
  | nil => exact List.Perm.refl _
  | cons x xs ih =>
    rw [sortLines]
    exact (insertLine_perm x (sortLines xs)).trans (ih.cons x)

theorem insertLine_sorted {l : List (List Nat)} (x : List Nat)
    (h : List.Pairwise leB l) : List.Pairwise leB (insertLine x l) := by
  induction l with
  | nil => simp [insertLine, List.Pairwise]
  | cons y ys ih =>
    rw [insertLine]
    by_cases hxy : leLine x y
    · rw [if_pos hxy]
      apply List.Pairwise.cons _ h
      intro z hz
      rcases List.mem_cons.mp hz with h1 | h1
      · subst h1; exact hxy
      · exact leLine_trans hxy (List.rel_of_pairwise_cons h h1)
    · rw [if_neg hxy]
      have hyx : leB y x := leLine_of_not_le (Bool.not_eq_true _ ▸ (by simpa using hxy))
      apply List.Pairwise.cons
      · intro z hz
        have := (insertLine_perm x ys).mem_iff.mp hz
        rcases List.mem_cons.mp this with h1 | h1
        · subst h1; exact hyx
        · exact List.rel_of_pairwise_cons h h1
      · exact ih (List.Pairwise.sublist (List.sublist_cons_self y ys) h)

theorem sortLines_sorted (l : List (List Nat)) : List.Pairwise leB (sortLines l) := by
  induction l with
  | nil => simp [sortLines, List.Pairwise]
  | cons x xs ih => exact insertLine_sorted x ih

/-- Sorting an already sorted list of lines leaves it unchanged. -/
theorem sortLines_of_sorted {l : List (List Nat)} (h : List.Pairwise leB l) :
    sortLines l = l := by
  induction l with
  | nil => rfl
  | cons x xs ih =>
    rw [sortLines, ih (List.Pairwise.sublist (List.sublist_cons_self x xs) h)]
    rcases xs with _ | ⟨y, ys⟩
    · rfl
    · have hxy : leLine x y = true := List.rel_of_pairwise_cons h (List.mem_cons_self y ys)
      rw [insertLine, if_pos hxy]

/-! ## The program's remaining functions -/

/-- copySubRangeOfFile of sort.py: seek to fileStart, read
fileEnd - fileStart bytes, assert that exactly that many bytes were
read, and write them.  The assertion failure is modelled as none.
(The program only ever calls it with fileStart ≤ fileEnd.) -/
def copySubRangeOfFile (c : List Nat) (fileStart fileEnd : Nat) : Option (List Nat) :=
  let data := (c.drop fileStart).take (fileEnd - fileStart)
  if data.length = fileEnd - fileStart then some data else none

/-- getMidPoint of sort.py.  seek(p) followed by readline is readline
of the stream dropped at p; each Python assert is modelled as a none
branch. -/
def getMidPoint (c : List Nat) (fileStart fileEnd : Nat) : Option Nat :=
  let midPoint := (fileStart + fileEnd) / 2
  if midPoint < fileStart then none
  else
    let line := (readline (c.drop midPoint)).1
    if line.length < 1 then none
    else if line.length + midPoint < fileEnd then some (midPoint + line.length - 1)
    else
      let line2 := (readline (c.drop fileStart)).1
      if line2.length < 1 then none
      else if fileEnd < line2.length + fileStart then none
      else some (line2.length + fileStart - 1)

/-- The final while loop of merge: flush the rest of input 2, starting
from the buffered line2 (empty means EOF was reached). -/
def mergeFlush (line2 rest2 : List Nat) : List Nat :=
  if h : line2 = [] then []
  else line2 ++ mergeFlush (readline rest2).1 (readline rest2).2
termination_by rest2.length + (if line2 = [] then 0 else 1)
decreasing_by
  rw [if_neg h]
  rcases Decidable.em (rest2 = []) with hr | hr
  · subst hr
    simp [readline]
  · have h1 := readline_snd_length_lt hr
    have h2 := readline_fst_ne_nil hr
    rw [if_neg h2]
    omega

/-- The inner while loop of merge: while the buffered line2 is
nonempty and ≤ line1, emit it and refill from input 2.  Returns the
emitted bytes, the new buffered line and the remaining stream. -/
def mergeWhile (line1 line2 rest2 : List Nat) : List Nat × List Nat × List Nat :=
  if h : line2 ≠ [] ∧ leLine line2 line1 = true then
    let q := mergeWhile line1 (readline rest2).1 (readline rest2).2
    (line2 ++ q.1, q.2.1, q.2.2)
  else ([], line2, rest2)
termination_by rest2.length + (if line2 = [] then 0 else 1)
decreasing_by
  rw [if_neg h.1]
  rcases Decidable.em (rest2 = []) with hr | hr
  · subst hr
    simp [readline]
  · have h1 := readline_snd_length_lt hr
    have h2 := readline_fst_ne_nil hr
    rw [if_neg h2]
    omega

/-- The for loop of merge: for each line1 of input 1, run the inner
while loop, then emit line1; at the end flush input 2. -/
def mergeFor : List (List Nat) → List Nat → List Nat → List Nat
  | [], line2, rest2 => mergeFlush line2 rest2
  | line1 :: rest1, line2, rest2 =>
    let q := mergeWhile line1 line2 rest2
    q.1 ++ line1 ++ mergeFor rest1 q.2.1 q.2.2

/-- merge of sort.py, as a function from the two input contents to the
bytes written to the output handle: line2 = fileHandle2.readline();
for line1 in fileHandle1.readlines(): while line2 nonempty and
line2 ≤ line1, emit line2 and refill; emit line1; finally flush the
rest of input 2. -/
def merge (c1 c2 : List Nat) : List Nat :=
  mergeFor (splitLines c1) (readline c2).1 (readline c2).2

/-- Line-level characterization of merge, used in proofs: for each
line of input 1, all not-yet-emitted lines of input 2 that are ≤ it
are emitted first. -/
def mergeL : List (List Nat) → List (List Nat) → List (List Nat)
  | [], l2s => l2s
  | l1 :: t1, l2s =>
    l2s.takeWhile (fun x => leLine x l1) ++
      l1 :: mergeL t1 (l2s.dropWhile (fun x => leLine x l1))

/-- mergeL instrumented with the origin of each emitted line:
false = taken from input 2, true = taken from input 1. -/
def mergeLT : List (List Nat) → List (List Nat) → List (List Nat × Bool)
  | [], l2s => l2s.map (fun x => (x, false))
  | l1 :: t1, l2s =>
    (l2s.takeWhile (fun x => leLine x l1)).map (fun x => (x, false)) ++
      (l1, true) :: mergeLT t1 (l2s.dropWhile (fun x => leLine x l1))

/-- down of sort.py, with the scheduler's recursive job execution made
explicit and an explicit recursion-depth fuel (the scheduler imposes
no depth bound; fuel exhaustion is modelled as none).  A range longer
than the threshold is split at getMidPoint into [0, mid+1) and
[mid+1, length), both halves are sorted recursively, and the follow-on
up job merges the two results; otherwise the content is sorted
directly. -/
def down : Nat → List Nat → Nat → Option (List Nat)
  | 0, _, _ => none
  | fuel + 1, c, n =>
    if n < c.length then
      match getMidPoint c 0 c.length with
      | none => none
      | some midPoint =>
        match copySubRangeOfFile c 0 (midPoint + 1),
              copySubRangeOfFile c (midPoint + 1) c.length with
        | some t1, some t2 =>
          match down fuel t1 n, down fuel t2 n with
          | some r1, some r2 => some (merge r1 r2)
          | _, _ => none
        | _, _ => none
    else some (sort c)

/-- cleanup of sort.py: copies the final content, byte for byte, to
the destination path. -/
def cleanup (c : List Nat) : List Nat := c

/-- The complete pipeline on a file content: the down recursion
followed by the cleanup copy. -/
def pipeline (fuel : Nat) (c : List Nat) (n : Nat) : Option (List Nat) :=
  (down fuel c n).map cleanup

/-! ## The file store, for the up step -/

/-- The durable file store: a map from ids to stored contents. -/
def Store : Type := Nat → Option (List Nat)

/-- fileStore.writeGlobalFile. -/
def writeGlobalFile (st : Store) (i : Nat) (c : List Nat) : Store :=
  fun k => if k = i then some c else st k

/-- fileStore.deleteGlobalFile. -/
def deleteGlobalFile (st : Store) (i : Nat) : Store :=
  fun k => if k = i then none else st k

/-- up of sort.py over an explicit store: read both inputs, run merge
into a fresh output id, and only then delete the two inputs.  A
missing input or an exception raised by merge (modelled by the
mergeRaises flag) propagates before the deletes run; the error case
carries the store as it stands at the raise point. -/
def up (st : Store) (i1 i2 outId : Nat) (mergeRaises : Bool) :
    Except Store (Store × Nat) :=
  match st i1, st i2 with
  | some c1, some c2 =>
    if mergeRaises then Except.error st
    else
      Except.ok
        (deleteGlobalFile (deleteGlobalFile (writeGlobalFile st outId (merge c1 c2)) i1) i2,
         outId)
  | _, _ => Except.error st

/-! ## Bridging merge to its line-level characterization -/

theorem WFlines_tail {l : List Nat} {ls : List (List Nat)}
    (h : WFlines (l :: ls)) : WFlines ls := by
  obtain ⟨h1, h2⟩ := h
  refine ⟨fun x hx => h1 x (List.mem_cons_of_mem _ hx), fun x hx => ?_⟩
  apply h2
  rcases hq : ls with _ | ⟨p, ps⟩
  · rw [hq] at hx; simp at hx
  · rw [List.dropLast_cons₂]
    rw [hq] at hx
    exact List.mem_cons_of_mem _ hx

theorem WFlines_dropWhile {ls : List (List Nat)} (p : List Nat → Bool)
    (h : WFlines ls) : WFlines (ls.dropWhile p) := by
  induction ls with
  | nil => exact h
  | cons l ls ih =>
    rw [List.dropWhile_cons]
    by_cases hp : p l = true
    · rw [if_pos hp]
      exact ih (WFlines_tail h)
    · rw [if_neg hp]
      exact h

/-- The flush loop writes back exactly the remaining stream. -/
theorem mergeFlush_readline (c : List Nat) :
    mergeFlush (readline c).1 (readline c).2 = c := by
  suffices h : ∀ n, ∀ c : List Nat, c.length ≤ n →
      mergeFlush (readline c).1 (readline c).2 = c from h c.length c (Nat.le_refl _)
  intro n
  induction n with
  | zero =>
    intro c hc
    have hcn : c = [] := List.eq_nil_of_length_eq_zero (Nat.le_zero.mp hc)
    subst hcn
    rw [show readline [] = ([], []) from rfl, mergeFlush]
    simp
  | succ n ih =>
    intro c hc
    by_cases h : c = []
    · subst h
      rw [show readline [] = ([], []) from rfl, mergeFlush]
      simp
    · rw [mergeFlush, dif_neg (readline_fst_ne_nil h),
        ih (readline c).2 (by have := readline_snd_length_lt h; omega)]
      exact readline_append_eq c

/-- The inner while loop, run on a readline state of the stream c,
emits the flattened leading ≤ lines of c and leaves the readline
state of the flattened remainder. -/
theorem mergeWhile_readline (l1 : List Nat) (c : List Nat) :
    mergeWhile l1 (readline c).1 (readline c).2 =
      (((splitLines c).takeWhile (fun x => leLine x l1)).flatten,
       (readline (((splitLines c).dropWhile (fun x => leLine x l1)).flatten)).1,
       (readline (((splitLines c).dropWhile (fun x => leLine x l1)).flatten)).2) := by
  suffices h : ∀ n, ∀ c : List Nat, c.length ≤ n →
      mergeWhile l1 (readline c).1 (readline c).2 =
        (((splitLines c).takeWhile (fun x => leLine x l1)).flatten,
         (readline (((splitLines c).dropWhile (fun x => leLine x l1)).flatten)).1,
         (readline (((splitLines c).dropWhile (fun x => leLine x l1)).flatten)).2) from
    h c.length c (Nat.le_refl _)
  intro n
  induction n with
  | zero =>
    intro c hc
    have hcn : c = [] := List.eq_nil_of_length_eq_zero (Nat.le_zero.mp hc)
    subst hcn
    rw [show readline [] = ([], []) from rfl, mergeWhile]
    simp [splitLines_nil, readline]
  | succ n ih =>
    intro c hc
    by_cases h : c = []
    · subst h
      rw [show readline [] = ([], []) from rfl, mergeWhile]
      simp [splitLines_nil, readline]
    · rw [splitLines_cons_eq h]
      by_cases hle : leLine (readline c).1 l1 = true
      · rw [mergeWhile, dif_pos ⟨readline_fst_ne_nil h, hle⟩]
        rw [ih (readline c).2 (by have := readline_snd_length_lt h; omega)]
        rw [List.takeWhile_cons, if_pos hle, List.dropWhile_cons, if_pos hle]
        simp
      · rw [mergeWhile, dif_neg (by
          intro hcon
          exact hle hcon.2)]
        rw [List.takeWhile_cons, if_neg hle, List.dropWhile_cons, if_neg hle]
        have hflat : ((readline c).1 :: splitLines (readline c).2).flatten = c := by
          rw [List.flatten_cons, flatten_splitLines]
          exact readline_append_eq c
        rw [hflat]
        simp

/-- The for loop on a readline state of stream c computes the
flattened line-level merge. -/
theorem mergeFor_readline (l1s : List (List Nat)) : ∀ c : List Nat,
    mergeFor l1s (readline c).1 (readline c).2 = (mergeL l1s (splitLines c)).flatten := by
  induction l1s with
  | nil =>
    intro c
    rw [mergeFor, mergeFlush_readline, mergeL]
    exact (flatten_splitLines c).symm
  | cons l1 t1 ih =>
    intro c
    rw [mergeFor, mergeL]
    simp only [mergeWhile_readline l1 c]
    have hd : splitLines (((splitLines c).dropWhile (fun x => leLine x l1)).flatten) =
        (splitLines c).dropWhile (fun x => leLine x l1) :=
      splitLines_flatten_of_WF (WFlines_dropWhile _ (WFlines_splitLines c))
    rw [ih (((splitLines c).dropWhile (fun x => leLine x l1)).flatten), hd]
    simp

/-- merge, at the level of line lists. -/
theorem merge_eq (c1 c2 : List Nat) :
    merge c1 c2 = (mergeL (splitLines c1) (splitLines c2)).flatten := by
  rw [merge, mergeFor_readline]

/-! ## Correctness of the line-level merge -/

theorem mergeL_perm (l1s : List (List Nat)) : ∀ l2s,
    List.Perm (mergeL l1s l2s) (l1s ++ l2s) := by
  induction l1s with
  | nil => intro l2s; rw [mergeL]; simp
  | cons a as ih =>
    intro l2s
    rw [mergeL]
    apply List.Perm.trans List.perm_middle
    apply List.Perm.cons
    have h1 : List.Perm (mergeL as (l2s.dropWhile (fun x => leLine x a)))
        (as ++ l2s.dropWhile (fun x => leLine x a)) := ih _
    apply List.Perm.trans (List.Perm.append_left _ h1)
    apply List.Perm.trans List.perm_append_comm
    rw [List.append_assoc]
    apply List.Perm.append_left
    apply List.Perm.trans List.perm_append_comm
    rw [List.takeWhile_append_dropWhile]

/-- On a sorted second input, everything the while loop left behind is
strictly greater than the pivot line. -/
theorem dropWhile_le_false {a : List Nat} {l2s : List (List Nat)}
    (h : List.Pairwise leB l2s) :
    ∀ y ∈ l2s.dropWhile (fun x => leLine x a), leLine y a = false := by
  induction l2s with
  | nil => simp
  | cons x t ih =>
    by_cases hp : leLine x a = true
    · simp only [List.dropWhile_cons, hp, if_true]
      exact ih (List.Pairwise.sublist (List.sublist_cons_self x t) h)
    · have hf : leLine x a = false := (Bool.not_eq_true _) ▸ hp
      simp only [List.dropWhile_cons, hf, Bool.false_eq_true, if_false]
      intro y hy
      rcases List.mem_cons.mp hy with h1 | h1
      · subst h1; exact (Bool.not_eq_true _) ▸ hp
      · by_cases hy2 : leLine y a = true
        · have hxy : leB x y := List.rel_of_pairwise_cons h h1
          exact absurd (leLine_trans hxy hy2) hp
        · exact (Bool.not_eq_true _) ▸ hy2

theorem mergeL_sorted {l1s : List (List Nat)} : ∀ {l2s : List (List Nat)},
    List.Pairwise leB l1s → List.Pairwise leB l2s →
    List.Pairwise leB (mergeL l1s l2s) := by
  induction l1s with
  | nil => intro l2s _ h2; rw [mergeL]; exact h2
  | cons a as ih =>
    intro l2s h1 h2
    rw [mergeL]
    have hD : List.Pairwise leB (l2s.dropWhile (fun x => leLine x a)) :=
      List.Pairwise.sublist (List.dropWhile_sublist _) h2
    have hR : List.Pairwise leB (mergeL as (l2s.dropWhile (fun x => leLine x a))) :=
      ih (List.Pairwise.sublist (List.sublist_cons_self a as) h1) hD
    have ha : ∀ y ∈ mergeL as (l2s.dropWhile (fun x => leLine x a)), leB a y := by
      intro y hy
      have := (mergeL_perm as _).mem_iff.mp hy
      rcases List.mem_append.mp this with h3 | h3
      · exact List.rel_of_pairwise_cons h1 h3
      · exact leLine_of_not_le (dropWhile_le_false h2 y h3)
    rw [List.pairwise_append]
    refine ⟨List.Pairwise.sublist (List.takeWhile_sublist _) h2, ?_, ?_⟩
    · exact List.Pairwise.cons ha hR
    · intro x hx y hy
      have hxa : leB x a := by simpa using List.mem_takeWhile_imp hx
      rcases List.mem_cons.mp hy with h3 | h3
      · subst h3; exact hxa
      · exact leLine_trans hxa (ha y h3)

/-! ## The tagged merge -/

theorem map_fst_pair_false (l : List (List Nat)) :
    (l.map (fun x => (x, false))).map Prod.fst = l := by
  induction l with
  | nil => rfl
  | cons x t ih => simp [ih]

theorem mergeLT_map_fst (l1s : List (List Nat)) : ∀ l2s,
    (mergeLT l1s l2s).map Prod.fst = mergeL l1s l2s := by
  induction l1s with
  | nil => intro l2s; rw [mergeLT, mergeL]; exact map_fst_pair_false l2s
  | cons a as ih =>
    intro l2s
    rw [mergeLT, mergeL, List.map_append, List.map_cons, map_fst_pair_false, ih]

theorem mem_mergeLT_false (l1s : List (List Nat)) : ∀ l2s x,
    (x, false) ∈ mergeLT l1s l2s → x ∈ l2s := by
  induction l1s with
  | nil =>
    intro l2s x h
    rw [mergeLT] at h
    simpa using (by simpa using h : x ∈ l2s ∧ True).1
  | cons a as ih =>
    intro l2s x h
    rw [mergeLT] at h
    rcases List.mem_append.mp h with h1 | h1
    · have : x ∈ l2s.takeWhile (fun x => leLine x a) := by
        rcases List.mem_map.mp h1 with ⟨y, hy, hxy⟩
        cases hxy
        exact hy
      exact (List.takeWhile_sublist _).subset this
    · rcases List.mem_cons.mp h1 with h2 | h2
      · cases h2
      · exact (List.dropWhile_sublist _).subset (ih _ x h2)

theorem pairwise_once_true {L : List Bool} (h : ∀ x ∈ L, x = false) :
    List.Pairwise (fun x y => x = true → y = true) L := by
  induction L with
  | nil => exact List.Pairwise.nil
  | cons x t ih =>
    refine List.Pairwise.cons (fun y _ hx => ?_) (ih fun y hy => h y (List.mem_cons_of_mem _ hy))
    rw [h x (List.mem_cons_self _ _)] at hx
    cases hx

/-- In the tagged merge of two sorted inputs, among the emitted lines
equal to any fixed value v, every line taken from input 2 precedes
every line taken from input 1. -/
theorem mergeLT_tie_core {l1s : List (List Nat)} : ∀ {l2s : List (List Nat)},
    List.Pairwise leB l1s → List.Pairwise leB l2s → ∀ v : List Nat,
    List.Pairwise (fun x y => x = true → y = true)
      (((mergeLT l1s l2s).filter (fun e => decide (e.1 = v))).map Prod.snd) := by
  induction l1s with
  | nil =>
    intro l2s _ _ v
    apply pairwise_once_true
    intro x hx
    rcases List.mem_map.mp hx with ⟨e, he, hex⟩
    have he2 := List.mem_of_mem_filter he
    rw [mergeLT] at he2
    rcases List.mem_map.mp he2 with ⟨y, _, hye⟩
    rw [← hye] at hex
    exact hex.symm
  | cons a as ih =>
    intro l2s h1 h2 v
    rw [mergeLT, List.filter_append, List.map_append]
    rw [List.pairwise_append]
    refine ⟨?_, ?_, ?_⟩
    · apply pairwise_once_true
      intro x hx
      rcases List.mem_map.mp hx with ⟨e, he, hex⟩
      have he2 := List.mem_of_mem_filter he
      rcases List.mem_map.mp he2 with ⟨y, _, hye⟩
      rw [← hye] at hex
      exact hex.symm
    · have hD : List.Pairwise leB (l2s.dropWhile (fun x => leLine x a)) :=
        List.Pairwise.sublist (List.dropWhile_sublist _) h2
      have hAs : List.Pairwise leB as :=
        List.Pairwise.sublist (List.sublist_cons_self a as) h1
      rw [List.filter_cons]
      by_cases hav : a = v
      · have hc : decide (((a, true) : List Nat × Bool).1 = v) = true := by simp [hav]
        rw [if_pos hc, List.map_cons]
        refine List.Pairwise.cons ?_ (ih hAs hD v)
        intro y hy _
        rcases List.mem_map.mp hy with ⟨e, he, hey⟩
        have hin := List.mem_of_mem_filter he
        have hv : e.1 = v := by simpa using List.of_mem_filter he
        obtain ⟨l, b⟩ := e
        cases b
        · have hl : l = v := hv
          have hmem : l ∈ l2s.dropWhile (fun x => leLine x a) :=
            mem_mergeLT_false as _ l hin
          have hfa := dropWhile_le_false h2 l hmem
          rw [hl, ← hav, leLine_refl a] at hfa
          cases hfa
        · exact hey.symm
      · have hc : ¬(decide (((a, true) : List Nat × Bool).1 = v) = true) := by
          simpa using hav
        rw [if_neg hc]
        exact ih hAs hD v
    · intro x hx y _
      rcases List.mem_map.mp hx with ⟨e, he, hex⟩
      have he2 := List.mem_of_mem_filter he
      rcases List.mem_map.mp he2 with ⟨z, _, hze⟩
      rw [← hze] at hex
      intro hxt
      rw [← hex] at hxt
      cases hxt

/-! ## Files whose every line is newline-terminated -/

/-- Every line of the list is newline-terminated. -/
def AllNl (ls : List (List Nat)) : Prop := ∀ l ∈ ls, l.getLast? = some nl

instance decidableAllNl (ls : List (List Nat)) : Decidable (AllNl ls) :=
  inferInstanceAs (Decidable (∀ l ∈ ls, l.getLast? = some nl))

/-- Re-splitting the concatenation of a permutation of a file's lines
recovers exactly those lines, provided all of them are terminated. -/
theorem splitLines_flatten_of_perm {c : List Nat} {ls : List (List Nat)}
    (hp : List.Perm ls (splitLines c)) (h : AllNl ls) :
    splitLines ls.flatten = ls := by
  apply splitLines_flatten_of_WF
  constructor
  · intro l hl
    exact ⟨splitLines_ne_nil l (hp.subset hl), splitLines_dropLast_ne_nl l (hp.subset hl)⟩
  · intro l hl
    exact h l (List.dropLast_subset _ hl)

/-- On an all-terminated file, sort permutes the lines exactly. -/
theorem splitLines_sort_of_AllNl {c : List Nat} (h : AllNl (splitLines c)) :
    splitLines (sort c) = sortLines (splitLines c) := by
  rw [sort]
  exact splitLines_flatten_of_perm (sortLines_perm (splitLines c))
    (fun l hl => h l ((sortLines_perm _).subset hl))

theorem length_flatten_perm {ls ms : List (List Nat)} (h : List.Perm ls ms) :
    ls.flatten.length = ms.flatten.length := by
  rw [List.length_flatten, List.length_flatten]
  exact (h.map List.length).sum_eq

/-- sort always preserves the byte length of the file. -/
theorem sort_length (c : List Nat) : (sort c).length = c.length := by
  rw [sort, length_flatten_perm (sortLines_perm (splitLines c)), flatten_splitLines]

/-- If two contents have permuted line lists, they have the same byte
length. -/
theorem length_eq_of_perm_splitLines {a b : List Nat}
    (h : List.Perm (splitLines a) (splitLines b)) : a.length = b.length := by
  rw [← flatten_splitLines a, ← flatten_splitLines b]
  exact length_flatten_perm h

/-- sort of a file whose lines are already sorted is the identity. -/
theorem sort_of_sorted {c : List Nat} (h : List.Pairwise leB (splitLines c)) :
    sort c = c := by
  rw [sort, sortLines_of_sorted h, flatten_splitLines]

/-! ## Properties of getMidPoint -/

theorem drop_ne_nil_of_lt {c : List Nat} {m : Nat} (h : m < c.length) :
    c.drop m ≠ [] := by
  intro hcon
  rw [List.drop_eq_nil_iff] at hcon
  omega

/-- On any range [s, e) within the file that contains a newline, the
asserts of getMidPoint pass and it returns a position i in [s, e)
holding a newline byte. -/
theorem getMidPoint_spec {c : List Nat} {s e : Nat} (hse : s < e) (hel : e ≤ c.length)
    (hnl : ∃ p, s ≤ p ∧ p < e ∧ getElem? c p = some nl) :
    ∃ i, getMidPoint c s e = some i ∧ s ≤ i ∧ i < e ∧ getElem? c i = some nl := by
  obtain ⟨p, hp1, hp2, hp3⟩ := hnl
  have hm1 : s ≤ (s + e) / 2 := by omega
  have hm2 : (s + e) / 2 < e := by omega
  have hmlen : (s + e) / 2 < c.length := by omega
  have hdropm : c.drop ((s + e) / 2) ≠ [] := drop_ne_nil_of_lt hmlen
  have hlen1 : 0 < (readline (c.drop ((s + e) / 2))).1.length :=
    List.length_pos.mpr (readline_fst_ne_nil hdropm)
  by_cases hbr : (readline (c.drop ((s + e) / 2))).1.length + (s + e) / 2 < e
  · have hterm : (readline (c.drop ((s + e) / 2))).1.getLast? = some nl := by
      rcases readline_close (c.drop ((s + e) / 2)) with h1 | ⟨h1, _⟩
      · exact h1
      · exfalso
        have hl : (readline (c.drop ((s + e) / 2))).1.length = c.length - (s + e) / 2 := by
          rw [h1, List.length_drop]
        omega
    have hpos := readline_nl_pos hterm
    rw [List.getElem?_drop] at hpos
    refine ⟨(s + e) / 2 + (readline (c.drop ((s + e) / 2))).1.length - 1,
      ?_, by omega, by omega, ?_⟩
    · simp only [getMidPoint]
      rw [if_neg (show ¬ (s + e) / 2 < s by omega),
        if_neg (show ¬ (readline (c.drop ((s + e) / 2))).1.length < 1 by omega),
        if_pos hbr]
    · have hidx : (s + e) / 2 + (readline (c.drop ((s + e) / 2))).1.length - 1 =
          (s + e) / 2 + ((readline (c.drop ((s + e) / 2))).1.length - 1) := by omega
      rw [hidx]
      exact hpos
  · have hd : getElem? (c.drop s) (p - s) = some nl := by
      rw [List.getElem?_drop]
      have hps : s + (p - s) = p := by omega
      rw [hps]
      exact hp3
    obtain ⟨hterm2, hlen2le⟩ := readline_of_nl_at hd
    have hdrops : c.drop s ≠ [] := drop_ne_nil_of_lt (by omega)
    have hlen2 : 0 < (readline (c.drop s)).1.length :=
      List.length_pos.mpr (readline_fst_ne_nil hdrops)
    have hpos := readline_nl_pos hterm2
    rw [List.getElem?_drop] at hpos
    refine ⟨(readline (c.drop s)).1.length + s - 1, ?_, by omega, by omega, ?_⟩
    · simp only [getMidPoint]
      rw [if_neg (show ¬ (s + e) / 2 < s by omega),
        if_neg (show ¬ (readline (c.drop ((s + e) / 2))).1.length < 1 by omega),
        if_neg hbr,
        if_neg (show ¬ (readline (c.drop s)).1.length < 1 by omega),
        if_neg (show ¬ e < (readline (c.drop s)).1.length + s by omega)]
    · have hidx : (readline (c.drop s)).1.length + s - 1 =
          s + ((readline (c.drop s)).1.length - 1) := by omega
      rw [hidx]
      exact hpos

/-- Whatever getMidPoint returns on the full range lies inside the
file and is either a newline position or the very last byte. -/
theorem getMidPoint_boundary {c : List Nat} {i : Nat}
    (h : getMidPoint c 0 c.length = some i) :
    i < c.length ∧ (getElem? c i = some nl ∨ i + 1 = c.length) := by
  simp only [getMidPoint] at h
  rw [if_neg (Nat.not_lt_zero _)] at h
  by_cases hc1 : (readline (c.drop ((0 + c.length) / 2))).1.length < 1
  · rw [if_pos hc1] at h
    cases h
  · rw [if_neg hc1] at h
    by_cases hbr : (readline (c.drop ((0 + c.length) / 2))).1.length + (0 + c.length) / 2 <
        c.length
    · rw [if_pos hbr] at h
      injection h with h
      subst h
      have hmlen : (0 + c.length) / 2 ≤ c.length := by omega
      constructor
      · omega
      · left
        have hterm : (readline (c.drop ((0 + c.length) / 2))).1.getLast? = some nl := by
          rcases readline_close (c.drop ((0 + c.length) / 2)) with h1 | ⟨h1, _⟩
          · exact h1
          · exfalso
            have hl : (readline (c.drop ((0 + c.length) / 2))).1.length =
                c.length - (0 + c.length) / 2 := by
              rw [h1, List.length_drop]
            omega
        have hpos := readline_nl_pos hterm
        rw [List.getElem?_drop] at hpos
        have hidx : (0 + c.length) / 2 + (readline (c.drop ((0 + c.length) / 2))).1.length - 1 =
            (0 + c.length) / 2 + ((readline (c.drop ((0 + c.length) / 2))).1.length - 1) := by
          omega
        rw [hidx]
        exact hpos
    · rw [if_neg hbr] at h
      by_cases hc2 : (readline (c.drop 0)).1.length < 1
      · rw [if_pos hc2] at h
        cases h
      · rw [if_neg hc2] at h
        by_cases hc3 : c.length < (readline (c.drop 0)).1.length + 0
        · rw [if_pos hc3] at h
          cases h
        · rw [if_neg hc3] at h
          injection h with h
          subst h
          constructor
          · omega
          · rcases readline_close (c.drop 0) with h1 | ⟨h1, h2⟩
            · left
              have hpos := readline_nl_pos h1
              rw [List.getElem?_drop] at hpos
              have hidx : (readline (c.drop 0)).1.length + 0 - 1 =
                  0 + ((readline (c.drop 0)).1.length - 1) := by omega
              rw [hidx]
              exact hpos
            · right
              have hl : (readline (c.drop 0)).1.length = c.length := by
                rw [h1, List.length_drop]
                omega
              omega

/-- When the range is longer than the threshold but its first line is
not, getMidPoint succeeds with a newline position that leaves both
halves nonempty. -/
theorem getMidPoint_strong {c : List Nat} {n : Nat} (hn : n < c.length)
    (hfirst : (readline (c.drop 0)).1.length ≤ n) :
    ∃ i, getMidPoint c 0 c.length = some i ∧ getElem? c i = some nl ∧
      i + 1 < c.length := by
  have hc0 : 0 < c.length := by omega
  have hm : (0 + c.length) / 2 < c.length := by omega
  have hdropm : c.drop ((0 + c.length) / 2) ≠ [] := drop_ne_nil_of_lt hm
  have hlen1 : 0 < (readline (c.drop ((0 + c.length) / 2))).1.length :=
    List.length_pos.mpr (readline_fst_ne_nil hdropm)
  have hdrops : c.drop 0 ≠ [] := drop_ne_nil_of_lt hc0
  have hlen2 : 0 < (readline (c.drop 0)).1.length :=
    List.length_pos.mpr (readline_fst_ne_nil hdrops)
  by_cases hbr : (readline (c.drop ((0 + c.length) / 2))).1.length + (0 + c.length) / 2 <
      c.length
  · have hterm : (readline (c.drop ((0 + c.length) / 2))).1.getLast? = some nl := by
      rcases readline_close (c.drop ((0 + c.length) / 2)) with h1 | ⟨h1, _⟩
      · exact h1
      · exfalso
        have hl : (readline (c.drop ((0 + c.length) / 2))).1.length =
            c.length - (0 + c.length) / 2 := by
          rw [h1, List.length_drop]
        omega
    have hpos := readline_nl_pos hterm
    rw [List.getElem?_drop] at hpos
    refine ⟨(0 + c.length) / 2 + (readline (c.drop ((0 + c.length) / 2))).1.length - 1,
      ?_, ?_, by omega⟩
    · simp only [getMidPoint]
      rw [if_neg (Nat.not_lt_zero _),
        if_neg (show ¬ (readline (c.drop ((0 + c.length) / 2))).1.length < 1 by omega),
        if_pos hbr]
    · have hidx : (0 + c.length) / 2 + (readline (c.drop ((0 + c.length) / 2))).1.length - 1 =
          (0 + c.length) / 2 + ((readline (c.drop ((0 + c.length) / 2))).1.length - 1) := by
        omega
      rw [hidx]
      exact hpos
  · have hterm2 : (readline (c.drop 0)).1.getLast? = some nl := by
      rcases readline_close (c.drop 0) with h1 | ⟨h1, _⟩
      · exact h1
      · exfalso
        have hl : (readline (c.drop 0)).1.length = c.length := by
          rw [h1, List.length_drop]
          omega
        omega
    have hpos := readline_nl_pos hterm2
    rw [List.getElem?_drop] at hpos
    refine ⟨(readline (c.drop 0)).1.length + 0 - 1, ?_, ?_, by omega⟩
    · simp only [getMidPoint]
      rw [if_neg (Nat.not_lt_zero _),
        if_neg (show ¬ (readline (c.drop ((0 + c.length) / 2))).1.length < 1 by omega),
        if_neg hbr,
        if_neg (show ¬ (readline (c.drop 0)).1.length < 1 by omega),
        if_neg (show ¬ c.length < (readline (c.drop 0)).1.length + 0 by omega)]
    · have hidx : (readline (c.drop 0)).1.length + 0 - 1 =
          0 + ((readline (c.drop 0)).1.length - 1) := by omega
      rw [hidx]
      exact hpos

/-! ## Soundness of the down recursion -/

/-- Given enough fuel, on a file whose lines are all terminated and
all no longer than the threshold, the down recursion terminates and
produces a content whose lines are a sorted permutation of the
input's lines. -/
theorem down_sound {n : Nat} (hn : 0 < n) : ∀ (fuel : Nat) (c : List Nat),
    c.length < fuel → AllNl (splitLines c) → (∀ l ∈ splitLines c, l.length ≤ n) →
    ∃ out, down fuel c n = some out ∧
      List.Perm (splitLines out) (splitLines c) ∧
      List.Pairwise leB (splitLines out) := by
  intro fuel
  induction fuel with
  | zero => intro c hc _ _; exact absurd hc (Nat.not_lt_zero _)
  | succ f ih =>
    intro c hc hAll hLen
    by_cases hsplit : n < c.length
    · have hcne : c ≠ [] := by
        intro hcon
        rw [hcon] at hsplit
        simp at hsplit
      have hfl : (readline (c.drop 0)).1 ∈ splitLines c := by
        rw [List.drop_zero, splitLines_cons_eq hcne]
        exact List.mem_cons_self _ _
      have hfirst : (readline (c.drop 0)).1.length ≤ n := hLen _ hfl
      obtain ⟨i, hmid, hinl, hilt⟩ := getMidPoint_strong hsplit hfirst
      have htl : (c.take (i + 1)).length = i + 1 := by
        rw [List.length_take]; omega
      have ht1 : copySubRangeOfFile c 0 (i + 1) = some (c.take (i + 1)) := by
        simp only [copySubRangeOfFile, List.drop_zero, Nat.sub_zero]
        rw [if_pos htl]
      have hdl : (c.drop (i + 1)).length = c.length - (i + 1) := List.length_drop _ _
      have ht2 : copySubRangeOfFile c (i + 1) c.length = some (c.drop (i + 1)) := by
        simp only [copySubRangeOfFile]
        rw [List.take_of_length_le (Nat.le_of_eq hdl), if_pos hdl]
      have htake_ne : c.take (i + 1) ≠ [] := by
        intro hcon
        rw [hcon] at htl
        simp at htl
      have htake_last : (c.take (i + 1)).getLast? = some nl := by
        rw [List.getLast?_eq_getElem?, htl]
        have hii : i + 1 - 1 = i := by omega
        rw [hii, List.getElem?_take, if_pos (Nat.lt_succ_self i)]
        exact hinl
      have hsl : splitLines c = splitLines (c.take (i + 1)) ++ splitLines (c.drop (i + 1)) := by
        conv_lhs => rw [← List.take_append_drop (i + 1) c]
        exact splitLines_append_of_nl htake_ne htake_last _
      have hmem1 : ∀ l ∈ splitLines (c.take (i + 1)), l ∈ splitLines c := by
        intro l hl; rw [hsl]; exact List.mem_append_left _ hl
      have hmem2 : ∀ l ∈ splitLines (c.drop (i + 1)), l ∈ splitLines c := by
        intro l hl; rw [hsl]; exact List.mem_append_right _ hl
      obtain ⟨r1, hr1, hp1, hs1⟩ := ih (c.take (i + 1))
        (by rw [htl]; omega)
        (fun l hl => hAll l (hmem1 l hl))
        (fun l hl => hLen l (hmem1 l hl))
      obtain ⟨r2, hr2, hp2, hs2⟩ := ih (c.drop (i + 1))
        (by rw [hdl]; omega)
        (fun l hl => hAll l (hmem2 l hl))
        (fun l hl => hLen l (hmem2 l hl))
      have hAll1 : AllNl (splitLines r1) := fun l hl => hAll l (hmem1 l (hp1.subset hl))
      have hAll2 : AllNl (splitLines r2) := fun l hl => hAll l (hmem2 l (hp2.subset hl))
      have hWFm : splitLines ((mergeL (splitLines r1) (splitLines r2)).flatten) =
          mergeL (splitLines r1) (splitLines r2) := by
        apply splitLines_flatten_of_WF
        constructor
        · intro l hl
          rcases List.mem_append.mp ((mergeL_perm _ _).subset hl) with h3 | h3
          · exact ⟨splitLines_ne_nil l h3, splitLines_dropLast_ne_nl l h3⟩
          · exact ⟨splitLines_ne_nil l h3, splitLines_dropLast_ne_nl l h3⟩
        · intro l hl
          have hl2 := List.dropLast_subset _ hl
          rcases List.mem_append.mp ((mergeL_perm _ _).subset hl2) with h3 | h3
          · exact hAll1 l h3
          · exact hAll2 l h3
      have hperm : List.Perm (splitLines (merge r1 r2)) (splitLines c) := by
        rw [merge_eq, hWFm]
        exact (mergeL_perm _ _).trans ((hp1.append hp2).trans (by rw [← hsl]))
      have hsorted : List.Pairwise leB (splitLines (merge r1 r2)) := by
        rw [merge_eq, hWFm]
        exact mergeL_sorted hs1 hs2
      have heval : down (f + 1) c n = some (merge r1 r2) := by
        simp only [down]
        rw [if_pos hsplit, hmid]
        simp only [ht1, ht2, hr1, hr2]
      exact ⟨merge r1 r2, heval, hperm, hsorted⟩
    · have hre : splitLines (sort c) = sortLines (splitLines c) :=
        splitLines_sort_of_AllNl hAll
      refine ⟨sort c, ?_, ?_, ?_⟩
      · simp only [down]
        rw [if_neg hsplit]
      · rw [hre]; exact sortLines_perm _
      · rw [hre]; exact sortLines_sorted _

/-! ## Remaining helper lemmas -/

/-- A content ending in a newline consists of whole lines only. -/
theorem AllNl_of_last_nl {c : List Nat} (h : c.getLast? = some nl) :
    AllNl (splitLines c) := by
  suffices hs : ∀ n, ∀ c : List Nat, c.length ≤ n → c.getLast? = some nl →
      AllNl (splitLines c) from hs c.length c (Nat.le_refl _) h
  intro n
  induction n with
  | zero =>
    intro c hc hlast
    have hcn : c = [] := List.eq_nil_of_length_eq_zero (Nat.le_zero.mp hc)
    subst hcn
    simp at hlast
  | succ n ih =>
    intro c hc hlast
    have hcne : c ≠ [] := by intro hcon; rw [hcon] at hlast; simp at hlast
    rw [splitLines_cons_eq hcne]
    intro l hl
    rcases List.mem_cons.mp hl with h1 | h1
    · subst h1
      rcases readline_close c with h2 | ⟨h2, _⟩
      · exact h2
      · rw [h2]; exact hlast
    · rcases hr : (readline c).2 with _ | ⟨y, ys⟩
      · rw [hr, splitLines_nil] at h1; simp at h1
      · have hrne : (readline c).2 ≠ [] := by rw [hr]; simp
        have hrlast : (readline c).2.getLast? = some nl := by
          have hap := readline_append_eq c
          rw [← hap] at hlast
          rwa [List.getLast?_append_of_ne_nil _ hrne] at hlast
        exact ih (readline c).2 (by have := readline_snd_length_lt hcne; omega) hrlast l h1

/-- When every line of both inputs is newline-terminated, re-splitting
the merged output recovers exactly the emitted lines. -/
theorem splitLines_merge_of_AllNl {a b : List Nat}
    (hA : AllNl (splitLines a)) (hB : AllNl (splitLines b)) :
    splitLines (merge a b) = mergeL (splitLines a) (splitLines b) := by
  rw [merge_eq]
  apply splitLines_flatten_of_WF
  constructor
  · intro l hl
    rcases List.mem_append.mp ((mergeL_perm _ _).subset hl) with h3 | h3
    · exact ⟨splitLines_ne_nil l h3, splitLines_dropLast_ne_nl l h3⟩
    · exact ⟨splitLines_ne_nil l h3, splitLines_dropLast_ne_nl l h3⟩
  · intro l hl
    have hl2 := List.dropLast_subset _ hl
    rcases List.mem_append.mp ((mergeL_perm _ _).subset hl2) with h3 | h3
    · exact hA l h3
    · exact hB l h3

theorem mergeL_nil2 : ∀ ls : List (List Nat), mergeL ls [] = ls := by
  intro ls
  induction ls with
  | nil => rfl
  | cons l t ih => rw [mergeL]; simp [ih]

/-! ## Claim theorems -/

/-- C1 counterexample: on the file "ba\nb" (final line unterminated)
with threshold 4 > 0, the pipeline terminates but its output's lines
are not a permutation of the input's lines: the leaf sort moves the
unterminated line first and it fuses with the next line. -/
theorem C1_counterexample :
    (0 : Nat) < 4 ∧ pipeline 5 [98, 97, 10, 98] 4 = some [98, 98, 97, 10] ∧
    ¬ List.Perm (splitLines [98, 98, 97, 10]) (splitLines [98, 97, 10, 98]) := by
  refine ⟨by decide, by decide, by decide⟩

/-- C1 (amended): for every threshold N > 0 and every input file all
of whose lines are newline-terminated and of length at most N, the
complete pipeline (down recursion with leaf sort, up merges, cleanup
copy) terminates and produces an output whose lines are a permutation
of the input's lines, in non-decreasing byte-wise lexicographic
order, with total byte length equal to the input's. -/
theorem C1_amended_pipeline_correct {c : List Nat} {n : Nat} (hn : 0 < n)
    (hAll : AllNl (splitLines c)) (hLen : ∀ l ∈ splitLines c, l.length ≤ n) :
    ∃ out, pipeline (c.length + 1) c n = some out ∧
      List.Perm (splitLines out) (splitLines c) ∧
      List.Pairwise leB (splitLines out) ∧ out.length = c.length := by
  obtain ⟨out, h1, h2, h3⟩ := down_sound hn (c.length + 1) c (Nat.lt_succ_self _) hAll hLen
  refine ⟨out, ?_, h2, h3, length_eq_of_perm_splitLines h2⟩
  rw [pipeline, h1]
  rfl

theorem C1_amended_pipeline_correct_witness :
    (0 : Nat) < 2 ∧ AllNl (splitLines [98, 10, 97, 10]) ∧
    (∀ l ∈ splitLines [98, 10, 97, 10], l.length ≤ 2) ∧
    ∃ out, pipeline 5 [98, 10, 97, 10] 2 = some out ∧
      List.Perm (splitLines out) (splitLines [98, 10, 97, 10]) ∧
      List.Pairwise leB (splitLines out) ∧ out.length = 4 :=
  ⟨by decide, by decide, by decide,
    C1_amended_pipeline_correct (by decide) (by decide) (by decide)⟩

/-- C2 counterexample: A = "b" and B = "b\nba\n" are each internally
sorted, but the bytes merge writes re-split into lines that are
neither sorted nor a permutation of the union of A's and B's lines. -/
theorem C2_counterexample :
    List.Pairwise leB (splitLines [98]) ∧
    List.Pairwise leB (splitLines [98, 10, 98, 97, 10]) ∧
    ¬ (List.Pairwise leB (splitLines (merge [98] [98, 10, 98, 97, 10])) ∧
       List.Perm (splitLines (merge [98] [98, 10, 98, 97, 10]))
         (splitLines [98] ++ splitLines [98, 10, 98, 97, 10])) := by
  rw [merge_eq]
  decide

/-- C2 (amended): for sorted inputs A and B all of whose lines are
newline-terminated, merge writes an output whose line sequence is
sorted and is a permutation of A's lines together with B's lines. -/
theorem C2_amended_merge_correct {a b : List Nat}
    (hA : AllNl (splitLines a)) (hB : AllNl (splitLines b))
    (hsA : List.Pairwise leB (splitLines a)) (hsB : List.Pairwise leB (splitLines b)) :
    List.Pairwise leB (splitLines (merge a b)) ∧
    List.Perm (splitLines (merge a b)) (splitLines a ++ splitLines b) := by
  rw [splitLines_merge_of_AllNl hA hB]
  exact ⟨mergeL_sorted hsA hsB, mergeL_perm _ _⟩

theorem C2_amended_merge_correct_witness :
    AllNl (splitLines [97, 10]) ∧ AllNl (splitLines [98, 10]) ∧
    List.Pairwise leB (splitLines [97, 10]) ∧ List.Pairwise leB (splitLines [98, 10]) ∧
    (List.Pairwise leB (splitLines (merge [97, 10] [98, 10])) ∧
     List.Perm (splitLines (merge [97, 10] [98, 10]))
       (splitLines [97, 10] ++ splitLines [98, 10])) :=
  ⟨by decide, by decide, by decide, by decide,
    C2_amended_merge_correct (by decide) (by decide) (by decide) (by decide)⟩

/-- C3: on any in-file range [s, e) that contains a line terminator
(equivalently, at least one complete line), getMidPoint passes its
asserts and returns i with s ≤ i < e such that the byte at offset i
is a newline, so the slice [s, i] is a whole number of complete
lines and the remainder begins a new line. -/
theorem C3_getMidPoint_boundary_spec {c : List Nat} {s e : Nat} (hse : s < e)
    (hel : e ≤ c.length) (hnl : ∃ p, s ≤ p ∧ p < e ∧ getElem? c p = some nl) :
    ∃ i, getMidPoint c s e = some i ∧ s ≤ i ∧ i < e ∧ getElem? c i = some nl ∧
      AllNl (splitLines ((c.drop s).take (i + 1 - s))) := by
  obtain ⟨i, h1, h2, h3, h4⟩ := getMidPoint_spec hse hel hnl
  refine ⟨i, h1, h2, h3, h4, ?_⟩
  apply AllNl_of_last_nl
  have hlen : ((c.drop s).take (i + 1 - s)).length = i + 1 - s := by
    rw [List.length_take, List.length_drop]
    omega
  rw [List.getLast?_eq_getElem?, hlen]
  have hidx : i + 1 - s - 1 = i - s := by omega
  rw [hidx, List.getElem?_take, if_pos (by omega), List.getElem?_drop]
  have hsi : s + (i - s) = i := by omega
  rw [hsi]
  exact h4

theorem C3_getMidPoint_boundary_spec_witness :
    (0 : Nat) < 4 ∧ (4 : Nat) ≤ List.length [97, 10, 98, 10] ∧
    (∃ p, 0 ≤ p ∧ p < 4 ∧ getElem? [97, 10, 98, 10] p = some nl) ∧
    ∃ i, getMidPoint [97, 10, 98, 10] 0 4 = some i ∧ 0 ≤ i ∧ i < 4 ∧
      getElem? [97, 10, 98, 10] i = some nl ∧
      AllNl (splitLines (([97, 10, 98, 10].drop 0).take (i + 1 - 0))) :=
  ⟨by decide, by decide, ⟨1, by decide, by decide, by decide⟩,
    C3_getMidPoint_boundary_spec (by decide) (by decide)
      ⟨1, by decide, by decide, by decide⟩⟩

/-- C4: for individually sorted inputs, merge's output is the
flattening of the tagged merge (tag false = taken from input 2, tag
true = taken from input 1), and among the emitted lines equal to any
fixed value all input-2 lines precede all input-1 lines. -/
theorem C4_merge_tie_input2_first {a b : List Nat}
    (hsA : List.Pairwise leB (splitLines a)) (hsB : List.Pairwise leB (splitLines b)) :
    merge a b = ((mergeLT (splitLines a) (splitLines b)).map Prod.fst).flatten ∧
    ∀ v : List Nat,
      List.Pairwise (fun x y => x = true → y = true)
        (((mergeLT (splitLines a) (splitLines b)).filter
          (fun e => decide (e.1 = v))).map Prod.snd) :=
  ⟨by rw [merge_eq, mergeLT_map_fst], fun v => mergeLT_tie_core hsA hsB v⟩

theorem C4_merge_tie_input2_first_witness :
    List.Pairwise leB (splitLines [98, 10]) ∧
    (merge [98, 10] [98, 10] =
        ((mergeLT (splitLines [98, 10]) (splitLines [98, 10])).map Prod.fst).flatten ∧
      ∀ v : List Nat,
        List.Pairwise (fun x y => x = true → y = true)
          (((mergeLT (splitLines [98, 10]) (splitLines [98, 10])).filter
            (fun e => decide (e.1 = v))).map Prod.snd)) :=
  ⟨by decide, C4_merge_tie_input2_first (by decide) (by decide)⟩

/-- C5: when up's merge raises (modelled by the mergeRaises flag) or
an input is missing, the error propagates before either
deleteGlobalFile call runs, so in the store at the raise point both
input handles still hold their previous contents. -/
theorem C5_up_error_inputs_intact {st : Store} {i1 i2 outId : Nat} {mr : Bool}
    {st' : Store} (h : up st i1 i2 outId mr = Except.error st') :
    st' i1 = st i1 ∧ st' i2 = st i2 := by
  rw [up] at h
  split at h
  · split at h
    · injection h with h
      subst h
      exact ⟨rfl, rfl⟩
    · simp at h
  · injection h with h
    subst h
    exact ⟨rfl, rfl⟩

theorem C5_up_error_inputs_intact_witness :
    up (fun k => if k = 0 then some [97] else if k = 1 then some [98] else none)
        0 1 2 true =
      Except.error
        (fun k => if k = 0 then some [97] else if k = 1 then some [98] else none) ∧
    ((fun k => if k = 0 then some [97] else if k = 1 then some [98] else none) :
        Store) 0 =
      (fun k => if k = 0 then some [97] else if k = 1 then some [98] else none) 0 ∧
    ((fun k => if k = 0 then some [97] else if k = 1 then some [98] else none) :
        Store) 1 =
      (fun k => if k = 0 then some [97] else if k = 1 then some [98] else none) 1 := by
  have h : up (fun k => if k = 0 then some [97] else if k = 1 then some [98] else none)
      0 1 2 true =
      Except.error
        (fun k => if k = 0 then some [97] else if k = 1 then some [98] else none) := rfl
  exact ⟨h, C5_up_error_inputs_intact h⟩

/-- C6: for any split point the full-range getMidPoint returns, the
two ranges [0, i+1) and [i+1, length) materialized by down copy
successfully, concatenate back to the original content byte for byte,
and their line lists concatenate to the original line list. -/
theorem C6_split_reassembles {c : List Nat} {i : Nat}
    (h : getMidPoint c 0 c.length = some i) :
    ∃ h1 h2, copySubRangeOfFile c 0 (i + 1) = some h1 ∧
      copySubRangeOfFile c (i + 1) c.length = some h2 ∧
      h1 ++ h2 = c ∧ splitLines h1 ++ splitLines h2 = splitLines c := by
  obtain ⟨hlt, hdis⟩ := getMidPoint_boundary h
  have htl : (c.take (i + 1)).length = i + 1 := by rw [List.length_take]; omega
  have ht1 : copySubRangeOfFile c 0 (i + 1) = some (c.take (i + 1)) := by
    simp only [copySubRangeOfFile, List.drop_zero, Nat.sub_zero]
    rw [if_pos htl]
  have hdl : (c.drop (i + 1)).length = c.length - (i + 1) := List.length_drop _ _
  have ht2 : copySubRangeOfFile c (i + 1) c.length = some (c.drop (i + 1)) := by
    simp only [copySubRangeOfFile]
    rw [List.take_of_length_le (Nat.le_of_eq hdl), if_pos hdl]
  refine ⟨c.take (i + 1), c.drop (i + 1), ht1, ht2, List.take_append_drop _ _, ?_⟩
  rcases hdis with hnl10 | hend
  · have htake_ne : c.take (i + 1) ≠ [] := by
      intro hcon; rw [hcon] at htl; simp at htl
    have htake_last : (c.take (i + 1)).getLast? = some nl := by
      rw [List.getLast?_eq_getElem?, htl]
      have hii : i + 1 - 1 = i := by omega
      rw [hii, List.getElem?_take, if_pos (Nat.lt_succ_self i)]
      exact hnl10
    conv_rhs => rw [← List.take_append_drop (i + 1) c]
    exact (splitLines_append_of_nl htake_ne htake_last _).symm
  · have hdropnil : c.drop (i + 1) = [] := by rw [List.drop_eq_nil_iff]; omega
    have htake : c.take (i + 1) = c := List.take_of_length_le (by omega)
    rw [hdropnil, htake, splitLines_nil, List.append_nil]

theorem C6_split_reassembles_witness :
    getMidPoint [97, 10, 98, 10] 0 4 = some 1 ∧
    ∃ h1 h2, copySubRangeOfFile [97, 10, 98, 10] 0 2 = some h1 ∧
      copySubRangeOfFile [97, 10, 98, 10] 2 4 = some h2 ∧
      h1 ++ h2 = [97, 10, 98, 10] ∧
      splitLines h1 ++ splitLines h2 = splitLines [97, 10, 98, 10] :=
  ⟨by decide, C6_split_reassembles (by decide)⟩

/-- C7 counterexample: sort is not idempotent as a function on files;
on "b\nba\nb" the first sort moves the unterminated line "b" to the
front, gluing it onto "b\n", and a second sort reorders the result. -/
theorem C7_counterexample :
    sort (sort [98, 10, 98, 97, 10, 98]) ≠ sort [98, 10, 98, 97, 10, 98] := by
  decide

/-- C7 (amended): sorting a file whose lines are already in
non-decreasing byte-wise lexicographic order rewrites it with
identical contents. -/
theorem C7_amended_sort_identity {c : List Nat}
    (h : List.Pairwise leB (splitLines c)) : sort c = c :=
  sort_of_sorted h

theorem C7_amended_sort_identity_witness :
    List.Pairwise leB (splitLines [97, 10, 98, 10]) ∧
    sort [97, 10, 98, 10] = [97, 10, 98, 10] :=
  ⟨by decide, C7_amended_sort_identity (by decide)⟩

/-- C8: for any range with start ≤ end, copySubRangeOfFile emits
exactly the bytes at offsets [start, end) when the file holds at
least end bytes, and fails (assert, modelled as none) exactly when
the number of bytes actually read differs from end - start. -/
theorem C8_copySubRangeOfFile_exact {c : List Nat} {s e : Nat} (hse : s ≤ e) :
    (e ≤ c.length →
      copySubRangeOfFile c s e = some ((c.drop s).take (e - s)) ∧
      ((c.drop s).take (e - s)).length = e - s) ∧
    (((c.drop s).take (e - s)).length ≠ e - s → copySubRangeOfFile c s e = none) := by
  constructor
  · intro he
    have hl : ((c.drop s).take (e - s)).length = e - s := by
      rw [List.length_take, List.length_drop]
      omega
    constructor
    · simp only [copySubRangeOfFile]
      rw [if_pos hl]
    · exact hl
  · intro hne
    simp only [copySubRangeOfFile]
    rw [if_neg hne]

theorem C8_copySubRangeOfFile_exact_witness :
    (1 : Nat) ≤ 3 ∧
    ((3 ≤ List.length [1, 2, 3] →
        copySubRangeOfFile [1, 2, 3] 1 3 = some (([1, 2, 3].drop 1).take 2) ∧
        (([1, 2, 3].drop 1).take 2).length = 2) ∧
      ((([1, 2, 3].drop 1).take 2).length ≠ 2 →
        copySubRangeOfFile [1, 2, 3] 1 3 = none)) :=
  ⟨by decide, C8_copySubRangeOfFile_exact (by decide)⟩

/-- C10: merging with an empty second input writes exactly the first
input, and merging with an empty first input writes exactly the
second input, with no sortedness assumption. -/
theorem C10_merge_empty_identity (c : List Nat) :
    merge c [] = c ∧ merge [] c = c := by
  constructor
  · rw [merge_eq, splitLines_nil, mergeL_nil2, flatten_splitLines]
  · rw [merge_eq, splitLines_nil, mergeL, flatten_splitLines]

end ToilSort
